import Mathlib

/-!
Formal model of the storage layer (`src/db/rmdb/src/storage/disk_manager.cpp`)
and the transactional delete executor
(`src/db/rmdb/src/execution/executor_delete.h`) of the hust-database
repository, together with proofs of the specified properties.

Conventions of the embedding:
* C++ `std::map` objects are modelled as association lists kept key-unique by
  construction (`insertA` re-inserts at the front after erasing the key).
* Files are byte lists; the filesystem is an association list from path to
  contents.
* Fallible C++ functions (those that may `throw`) return `Except DbError _`.
* The return values of OS calls (`lseek`, `read`, `write`) that the C++ code
  inspects are passed in as explicit parameters, so that both the normal OS
  behaviour (full transfer) and failing / short-transfer behaviour are
  expressible; the error-checking logic itself is translated verbatim from
  the source.
-/

/-- Error kinds thrown by the storage layer and its collaborators
(`UnixError`, `FileExistsError`, `FileNotFoundError`, `FileNotOpenError` from
the disk manager; `RecordNotFound`, `KeyNotFound`, `IndexNotFound` from the
heap / index facades described in the spec). -/
inductive DbError : Type
  | unixError : DbError
  | fileExists : String → DbError
  | fileNotFound : String → DbError
  | fileNotOpen : Nat → DbError
  | recordNotFound : DbError
  | keyNotFound : DbError
  | indexNotFound : DbError
deriving DecidableEq, Repr

/-- Association-list lookup (first binding of the key wins). -/
def lookupA {α β : Type} [DecidableEq α] : List (α × β) → α → Option β
  | [], _ => none
  | (k, v) :: l, k' => if k' = k then some v else lookupA l k'

/-- Remove every binding of a key (models `std::map::erase`; under the
key-uniqueness discipline of `insertA` there is at most one). -/
def eraseA {α β : Type} [DecidableEq α] : List (α × β) → α → List (α × β)
  | [], _ => []
  | (k, v) :: l, k' => if k = k' then eraseA l k' else (k, v) :: eraseA l k'

/-- Insert-or-assign (models `map[k] = v`). -/
def insertA {α β : Type} [DecidableEq α] (l : List (α × β)) (k : α) (v : β) :
    List (α × β) :=
  (k, v) :: eraseA l k

/-! ### Page storage: constants and byte-level file model -/

/-- Fixed page size in bytes. `defs.h` is not among the sources; the concrete
value (4096 in the original project) is immaterial to every theorem below. -/
def PAGE_SIZE : Nat := 4096

/-- Bound on file descriptors (size of the `fd2pageno_` array). `defs.h` is
not among the sources; the concrete value is immaterial to the theorems. -/
def MAX_FD : Nat := 8192

/-- Name of the log file (`LOG_FILE_NAME` of `defs.h`, not among the sources;
the concrete string is immaterial to the theorems). -/
def LOG_FILE_NAME : String := "db.log"

/-- Zero-extend a file to length at least `n` (`lseek` past EOF followed by a
write reads back as zeros). -/
def padTo (file : List Nat) (n : Nat) : List Nat :=
  file ++ List.replicate (n - file.length) 0

/-- Overwrite the bytes of `file` starting at `off` with `data`,
zero-extending the file if `off` is past the end. -/
def writeBytes (file : List Nat) (off : Nat) (data : List Nat) : List Nat :=
  (padTo file off).take off ++ data ++ (padTo file off).drop (off + data.length)

/-- Read `n` bytes of `file` starting at `off` (fewer if the file ends). -/
def readBytes (file : List Nat) (off n : Nat) : List Nat :=
  (file.drop off).take n

/-! ### write_page / read_page

`DiskManager::write_page` asserts `num_bytes <= PAGE_SIZE`, seeks to
`page_no * PAGE_SIZE` with the checked `Lseek` wrapper (throws `UnixError` on
a negative return) and calls the checked `Write` wrapper, which throws
`UnixError` exactly when the `write` syscall returns a negative value — the
transferred byte count is otherwise not inspected. `read_page` is symmetric.
`lseekRet` / `ioRet` are the values the OS calls return: for a normally
behaving OS `lseekRet = page_no * PAGE_SIZE ≥ 0` and `ioRet = num_bytes`. -/

/-- Model of `DiskManager::write_page`: returns the updated file contents.
The first `min num_bytes ioRet.toNat` bytes of `data` land at byte offset
`page_no * PAGE_SIZE`. -/
def write_page (file : List Nat) (page_no : Nat) (data : List Nat)
    (num_bytes : Nat) (lseekRet ioRet : Int) : Except DbError (List Nat) :=
  if lseekRet < 0 then Except.error DbError.unixError
  else if ioRet < 0 then Except.error DbError.unixError
  else Except.ok (writeBytes file (page_no * PAGE_SIZE)
    ((data.take num_bytes).take ioRet.toNat))

/-- Model of `DiskManager::read_page`: returns the bytes transferred into the
caller's buffer. -/
def read_page (file : List Nat) (page_no : Nat) (num_bytes : Nat)
    (lseekRet ioRet : Int) : Except DbError (List Nat) :=
  if lseekRet < 0 then Except.error DbError.unixError
  else if ioRet < 0 then Except.error DbError.unixError
  else Except.ok ((readBytes file (page_no * PAGE_SIZE) num_bytes).take ioRet.toNat)

/-! ### AllocatePage -/

/-- Model of `DiskManager::AllocatePage`: `return fd2pageno_[fd]++` — yields
the current counter of `fd` and the updated counter table. The caller must
satisfy the assert `0 ≤ fd < MAX_FD`. -/
def AllocatePage (tbl : Nat → Nat) (fd : Nat) : Nat × (Nat → Nat) :=
  (tbl fd, fun x => if x = fd then tbl fd + 1 else tbl x)

/-- The counter table of a freshly constructed `DiskManager`
(the constructor zeroes `fd2pageno_`). -/
def initPageTable : Nat → Nat := fun _ => 0

/-- Run `AllocatePage` `k` times on the same handle, collecting the returned
page numbers. -/
def allocRun (tbl : Nat → Nat) (fd : Nat) : Nat → List Nat × (Nat → Nat)
  | 0 => ([], tbl)
  | k + 1 =>
    let step := AllocatePage tbl fd
    let rest := allocRun step.2 fd k
    (step.1 :: rest.1, rest.2)

/-! ### Open File Table -/

/-- Filesystem model: path → file contents. A path is a regular file iff it
is present (directories are out of scope of the claims). -/
abbrev FileSys := List (String × List Nat)

/-- Model of `DiskManager::is_file`: `stat` succeeds and the entry is a
regular file. -/
def is_file (fsys : FileSys) (path : String) : Bool :=
  (lookupA fsys path).isSome

/-- Model of `DiskManager::GetFileSize`: the size on success, `-1` when the
path cannot be stat'ed. -/
def GetFileSize (fsys : FileSys) (path : String) : Int :=
  match lookupA fsys path with
  | some content => (content.length : Int)
  | none => -1

/-- The two direction maps of the Open File Table
(`path2fd_ : std::map<std::string,int>` and `fd2path_ : std::map<int,std::string>`). -/
structure DM : Type where
  path2fd : List (String × Nat)
  fd2path : List (Nat × String)
deriving DecidableEq, Repr

/-- A freshly constructed `DiskManager`: both maps empty. -/
def initDM : DM := ⟨[], []⟩

/-- The descriptor the OS `open` call returns: some integer distinct from
every descriptor the manager currently holds open (the OS never hands out a
descriptor that is still open in the process). -/
def freshFd (s : DM) : Nat :=
  (s.fd2path.map Prod.fst).foldr max 0 + 1

/-- Model of `DiskManager::open_file`: throws `FileNotFoundError` unless the
path is a regular file; if the path is already in the table, returns its
existing descriptor unchanged; otherwise OS-opens the file and records the
mapping in both directions. -/
def open_file (fsys : FileSys) (s : DM) (path : String) :
    Except DbError (Nat × DM) :=
  if is_file fsys path = false then
    Except.error (DbError.fileNotFound path)
  else
    match lookupA s.path2fd path with
    | none =>
        let fd := freshFd s
        Except.ok (fd, ⟨insertA s.path2fd path fd, insertA s.fd2path fd path⟩)
    | some fd => Except.ok (fd, s)

/-- Model of `DiskManager::close_file`: throws `FileNotOpenError` if the
descriptor is not in the table; otherwise OS-closes it and erases both
mapping directions. -/
def close_file (s : DM) (fd : Nat) : Except DbError DM :=
  match lookupA s.fd2path fd with
  | some path => Except.ok ⟨eraseA s.path2fd path, eraseA s.fd2path fd⟩
  | none => Except.error (DbError.fileNotOpen fd)

/-- One Open File Table operation. -/
inductive FileOp : Type
  | openOp : String → FileOp
  | closeOp : Nat → FileOp

/-- Apply one operation; a thrown error leaves the table unchanged (both
functions throw before mutating any map). -/
def applyFileOp (fsys : FileSys) (s : DM) : FileOp → DM
  | FileOp.openOp p =>
      match open_file fsys s p with
      | Except.ok r => r.2
      | Except.error _ => s
  | FileOp.closeOp fd =>
      match close_file s fd with
      | Except.ok s' => s'
      | Except.error _ => s

/-- Run a sequence of open/close operations from a starting table. -/
def runFileOps (fsys : FileSys) : DM → List FileOp → DM
  | s, [] => s
  | s, op :: ops => runFileOps fsys (applyFileOp fsys s op) ops

/-- The Open File Table invariant: the two maps are mutual inverses, and each
direction is key-unique (a path is open under at most one descriptor and a
descriptor names at most one path). -/
def OftInv (s : DM) : Prop :=
  (∀ p fd, lookupA s.path2fd p = some fd ↔ lookupA s.fd2path fd = some p) ∧
  (s.path2fd.map Prod.fst).Nodup ∧ (s.fd2path.map Prod.fst).Nodup

/-! ### Log file I/O (ReadLog / WriteLog) -/

/-- The part of `DiskManager` state the log path touches: the filesystem, the
Open File Table and the lazily initialised `log_fd_` (`-1` is `none`). -/
structure LogMgr : Type where
  fsys : FileSys
  dm : DM
  log_fd : Option Nat
deriving DecidableEq, Repr

/-- The lazy-open preamble shared by `ReadLog` and `WriteLog`:
`if (log_fd_ == -1) log_fd_ = open_file(LOG_FILE_NAME);`. -/
def ensureLogOpen (m : LogMgr) : Except DbError LogMgr :=
  match m.log_fd with
  | some _ => Except.ok m
  | none =>
      match open_file m.fsys m.dm LOG_FILE_NAME with
      | Except.error e => Except.error e
      | Except.ok (fd, dm') => Except.ok ⟨m.fsys, dm', some fd⟩

/-- Contents of the log file (empty if absent). -/
def logContents (m : LogMgr) : List Nat :=
  (lookupA m.fsys LOG_FILE_NAME).getD []

/-- Model of `DiskManager::ReadLog`. `readRet` is the return value of the
`read` syscall at the final read (a normally behaving OS returns the clamped
size). On success yields (more-data flag, bytes delivered to the caller's
buffer, updated manager). The unchecked `lseek` of the source is not
error-checked here either. -/
def ReadLog (m : LogMgr) (size offset prev_log_end : Int) (readRet : Int) :
    Except DbError (Bool × List Nat × LogMgr) :=
  match ensureLogOpen m with
  | Except.error e => Except.error e
  | Except.ok m1 =>
      let off := offset + prev_log_end
      let file_size := GetFileSize m1.fsys LOG_FILE_NAME
      if off ≥ file_size then Except.ok (false, [], m1)
      else
        let sz := min size (file_size - off)
        if readRet ≠ sz then Except.error DbError.unixError
        else Except.ok (true,
          (readBytes (logContents m1) off.toNat sz.toNat).take readRet.toNat, m1)

/-- Model of `DiskManager::WriteLog`. `writeRet` is the return value of the
`write` syscall (a normally behaving OS returns `size`); the write happens at
end-of-file (`lseek(log_fd_, 0, SEEK_END)`, unchecked in the source). -/
def WriteLog (m : LogMgr) (log_data : List Nat) (size : Int) (writeRet : Int) :
    Except DbError LogMgr :=
  match ensureLogOpen m with
  | Except.error e => Except.error e
  | Except.ok m1 =>
      if writeRet ≠ size then Except.error DbError.unixError
      else Except.ok ⟨insertA m1.fsys LOG_FILE_NAME
        (logContents m1 ++ (log_data.take size.toNat).take writeRet.toNat),
        m1.dm, m1.log_fd⟩

/-! ### Transactional delete executor

Types of the executor's collaborators. `ColMeta`, `Rid`, `WriteRecord` and
`WType` mirror the project's metadata/record types as used by
`DeleteExecutor::Next`; the heap store (`RmFileHandle`), the index facade
(`IxIndexHandle`) and the transaction's write-record list are external
collaborators whose implementations are not among the sources and are
modelled from the spec where noted. -/

namespace RmDb

/-- Row identifier: page number and slot number. -/
structure Rid : Type where
  page_no : Nat
  slot_no : Nat
deriving DecidableEq, Repr

/-- Column metadata as used by the executor: byte offset and length of the
column inside a row, and whether the column carries an index. -/
structure ColMeta : Type where
  offset : Nat
  len : Nat
  index : Bool
deriving DecidableEq, Repr

/-- Table metadata: the column list. -/
structure TabMeta : Type where
  cols : List ColMeta
deriving DecidableEq, Repr

/-- Write-record kinds (`WType`). -/
inductive WType : Type
  | INSERT_TUPLE : WType
  | DELETE_TUPLE : WType
  | UPDATE_TUPLE : WType
deriving DecidableEq, Repr

/-- A write record: kind, table name, rid, and the affected row's bytes. -/
structure WriteRecord : Type where
  wtype : WType
  tab_name : String
  rid : Rid
  record : List Nat
deriving DecidableEq, Repr

/-- Entries of one column's secondary index: (encoded key bytes, rid) pairs. -/
abbrev IxEntries := List (List Nat × Rid)

/-- Observable events of one `DeleteExecutor::Next` invocation, used to state
the ordering properties. -/
inductive Ev : Type
  | fetch : Rid → Ev
  | idxDelete : Rid → Nat → Ev
  | heapDelete : Rid → Ev
  | appendWrite : Rid → Ev
deriving DecidableEq, Repr

/-- The rid an event concerns. -/
def evRid : Ev → Rid
  | Ev.fetch r => r
  | Ev.idxDelete r _ => r
  | Ev.heapDelete r => r
  | Ev.appendWrite r => r

/-- State touched by one executor invocation: the table's heap records, the
per-column index contents (aligned with the column list; the entry list of a
non-indexed column is unused), the transaction's write-record list, and the
event trace. -/
structure ExecState : Type where
  heap : List (Rid × List Nat)
  indexes : List IxEntries
  writes : List WriteRecord
  trace : List Ev
deriving DecidableEq, Repr

/-- Modelled from the spec: the Heap Record Store's `get(rid) -> bytes`
(`RmFileHandle::get_record`, not among the sources) — fails with
`RecordNotFound` on an invalid rid. -/
def get_record (heap : List (Rid × List Nat)) (rid : Rid) :
    Except DbError (List Nat) :=
  match lookupA heap rid with
  | some rec => Except.ok rec
  | none => Except.error DbError.recordNotFound

/-- Modelled from the spec: the Heap Record Store's `delete(rid)`
(`RmFileHandle::delete_record`, not among the sources) — fails with
`RecordNotFound` on an invalid rid, otherwise removes the row. -/
def delete_record (heap : List (Rid × List Nat)) (rid : Rid) :
    Except DbError (List (Rid × List Nat)) :=
  match lookupA heap rid with
  | some _ => Except.ok (eraseA heap rid)
  | none => Except.error DbError.recordNotFound

/-- Modelled from the spec: the Index Access Facade's
`deleteEntry(encodedKeyBytes, rid)` (`IxIndexHandle::delete_entry`, not among
the sources) — removes the (key, rid) entry, failing with `KeyNotFound` if
the entry is absent. -/
def delete_entry (ix : IxEntries) (key : List Nat) (rid : Rid) :
    Except DbError IxEntries :=
  if (key, rid) ∈ ix then Except.ok (ix.erase (key, rid))
  else Except.error DbError.keyNotFound

/-- Modelled from the spec: the transaction context's
`appendWriteRecord(record)` — in-memory append to the transaction's ordered
write-record list; always succeeds. -/
def AppendWriteRecord (ws : List WriteRecord) (w : WriteRecord) :
    List WriteRecord :=
  ws ++ [w]

/-- The encoded key of column `c` inside row bytes `rec`
(`rec->data + col.offset`, read to the column's length). -/
def colKey (rec : List Nat) (c : ColMeta) : List Nat :=
  (rec.drop c.offset).take c.len

/-- The per-column loop of `DeleteExecutor::Next`: for every column flagged
as indexed, delete the (key, rid) entry from that column's index. `i` is the
position of the first column of `cols` in the table's column list. Returns
the updated index contents and the index-deletion events in order. -/
def deleteFromIndexes (rec : List Nat) (rid : Rid) :
    Nat → List ColMeta → List IxEntries →
    Except DbError (List IxEntries × List Ev)
  | _, [], ixs => Except.ok (ixs, [])
  | _, _ :: _, [] => Except.ok ([], [])
  | i, c :: cs, ix :: ixs =>
      if c.index then
        match delete_entry ix (colKey rec c) rid with
        | Except.error e => Except.error e
        | Except.ok ix' =>
            match deleteFromIndexes rec rid (i + 1) cs ixs with
            | Except.error e => Except.error e
            | Except.ok (ixs', evs) =>
                Except.ok (ix' :: ixs', Ev.idxDelete rid i :: evs)
      else
        match deleteFromIndexes rec rid (i + 1) cs ixs with
        | Except.error e => Except.error e
        | Except.ok (ixs', evs) => Except.ok (ix :: ixs', evs)

/-- The body of the per-rid loop of `DeleteExecutor::Next`: fetch the row,
delete its key from every indexed column's index, delete the heap record,
then append a `DELETE_TUPLE` write record carrying the table name, the rid
and the fetched row bytes. -/
def deleteOne (tab : TabMeta) (tab_name : String) (st : ExecState) (rid : Rid) :
    Except DbError ExecState :=
  match get_record st.heap rid with
  | Except.error e => Except.error e
  | Except.ok rec =>
      match deleteFromIndexes rec rid 0 tab.cols st.indexes with
      | Except.error e => Except.error e
      | Except.ok (ixs', evs) =>
          match delete_record st.heap rid with
          | Except.error e => Except.error e
          | Except.ok heap' =>
              Except.ok ⟨heap', ixs',
                AppendWriteRecord st.writes
                  ⟨WType.DELETE_TUPLE, tab_name, rid, rec⟩,
                st.trace ++ (Ev.fetch rid :: evs) ++
                  [Ev.heapDelete rid, Ev.appendWrite rid]⟩

/-- Model of `DeleteExecutor::Next`: process the rid list in order; any
failure aborts the whole invocation. -/
def DeleteNext (tab : TabMeta) (tab_name : String) :
    ExecState → List Rid → Except DbError ExecState
  | st, [] => Except.ok st
  | st, rid :: rids =>
      match deleteOne tab tab_name st rid with
      | Except.error e => Except.error e
      | Except.ok st' => DeleteNext tab tab_name st' rids

/-- Positions of the indexed columns, counting from `i`. -/
def indexedPos : Nat → List ColMeta → List Nat
  | _, [] => []
  | i, c :: cs =>
      if c.index then i :: indexedPos (i + 1) cs else indexedPos (i + 1) cs

/-- The event block one rid contributes to the trace on success. -/
def ridTrace (tab : TabMeta) (rid : Rid) : List Ev :=
  Ev.fetch rid :: (indexedPos 0 tab.cols).map (Ev.idxDelete rid) ++
    [Ev.heapDelete rid, Ev.appendWrite rid]

/-- Events that are row fetches. -/
def isFetch : Ev → Bool
  | Ev.fetch _ => true
  | _ => false

end RmDb

/-!
### Supporting lemmas
-/

theorem lookupA_eraseA_self {α β : Type} [DecidableEq α]
    (l : List (α × β)) (k : α) : lookupA (eraseA l k) k = none := by
  induction l with
  | nil => rfl
  | cons kv l ih =>
      obtain ⟨k', v⟩ := kv
      by_cases h : k' = k
      · simpa [eraseA, h] using ih
      · simp [eraseA, h, lookupA, Ne.symm h, ih]

theorem lookupA_eraseA_ne {α β : Type} [DecidableEq α]
    (l : List (α × β)) {k k' : α} (h : k' ≠ k) :
    lookupA (eraseA l k) k' = lookupA l k' := by
  induction l with
  | nil => rfl
  | cons kv l ih =>
      obtain ⟨a, v⟩ := kv
      by_cases ha : a = k
      · subst ha
        simp [eraseA, lookupA, h, ih]
      · by_cases hb : k' = a
        · subst hb
          simp [eraseA, ha, lookupA]
        · simp [eraseA, ha, lookupA, hb, ih]

theorem lookupA_insertA_self {α β : Type} [DecidableEq α]
    (l : List (α × β)) (k : α) (v : β) :
    lookupA (insertA l k v) k = some v := by
  simp [insertA, lookupA]

theorem lookupA_insertA_ne {α β : Type} [DecidableEq α]
    (l : List (α × β)) {k k' : α} (v : β) (h : k' ≠ k) :
    lookupA (insertA l k v) k' = lookupA l k' := by
  simp [insertA, lookupA, h, lookupA_eraseA_ne l h]

theorem lookupA_eraseA_some {α β : Type} [DecidableEq α]
    {l : List (α × β)} {k k' : α} {v : β}
    (h : lookupA (eraseA l k) k' = some v) : lookupA l k' = some v := by
  by_cases hk : k' = k
  · subst hk
    rw [lookupA_eraseA_self] at h
    exact absurd h (by simp)
  · rwa [lookupA_eraseA_ne l hk] at h

theorem padTo_length (file : List Nat) (n : Nat) : n ≤ (padTo file n).length := by
  simp [padTo]
  omega

/-- Reading back what was written at the same offset returns the data. -/
theorem readBytes_writeBytes (file data : List Nat) (off : Nat) :
    readBytes (writeBytes file off data) off data.length = data := by
  unfold readBytes writeBytes
  have hlen : ((padTo file off).take off).length = off := by
    simp [List.length_take]
    exact padTo_length file off
  rw [List.append_assoc, List.drop_left' hlen]
  exact List.take_left' rfl

theorem allocRun_eq_range' (tbl : Nat → Nat) (fd k : Nat) :
    (allocRun tbl fd k).1 = List.range' (tbl fd) k := by
  induction k generalizing tbl with
  | zero => rfl
  | succ k ih =>
      simp only [allocRun, AllocatePage, List.range'_succ]
      rw [ih]
      simp

theorem keys_eraseA_subset {α β : Type} [DecidableEq α]
    (l : List (α × β)) (k k' : α)
    (h : k' ∈ (eraseA l k).map Prod.fst) : k' ∈ l.map Prod.fst := by
  induction l with
  | nil => simp [eraseA] at h
  | cons kv l ih =>
      obtain ⟨a, v⟩ := kv
      by_cases ha : a = k
      · rw [eraseA, if_pos ha] at h
        exact List.mem_cons_of_mem _ (ih h)
      · rw [eraseA, if_neg ha] at h
        rcases List.mem_cons.mp h with h1 | h1
        · exact List.mem_cons.mpr (Or.inl h1)
        · exact List.mem_cons_of_mem _ (ih h1)

theorem nodup_keys_eraseA {α β : Type} [DecidableEq α]
    (l : List (α × β)) (k : α) (h : (l.map Prod.fst).Nodup) :
    ((eraseA l k).map Prod.fst).Nodup := by
  induction l with
  | nil => simp [eraseA]
  | cons kv l ih =>
      obtain ⟨a, v⟩ := kv
      simp only [List.map_cons, List.nodup_cons] at h
      by_cases ha : a = k
      · rw [eraseA, if_pos ha]
        exact ih h.2
      · rw [eraseA, if_neg ha]
        simp only [List.map_cons, List.nodup_cons]
        exact ⟨fun hmem => h.1 (keys_eraseA_subset l k a hmem), ih h.2⟩

theorem not_mem_keys_eraseA {α β : Type} [DecidableEq α]
    (l : List (α × β)) (k : α) : k ∉ (eraseA l k).map Prod.fst := by
  intro h
  induction l with
  | nil => simp [eraseA] at h
  | cons kv l ih =>
      obtain ⟨a, v⟩ := kv
      by_cases ha : a = k
      · rw [eraseA, if_pos ha] at h
        exact ih h
      · rw [eraseA, if_neg ha] at h
        rcases List.mem_cons.mp h with h1 | h1
        · exact ha h1.symm
        · exact ih h1

theorem nodup_keys_insertA {α β : Type} [DecidableEq α]
    (l : List (α × β)) (k : α) (v : β) (h : (l.map Prod.fst).Nodup) :
    ((insertA l k v).map Prod.fst).Nodup := by
  simp only [insertA, List.map_cons, List.nodup_cons]
  exact ⟨not_mem_keys_eraseA l k, nodup_keys_eraseA l k h⟩

theorem lookupA_mem_keys {α β : Type} [DecidableEq α]
    {l : List (α × β)} {k : α} {v : β} (h : lookupA l k = some v) :
    k ∈ l.map Prod.fst := by
  induction l with
  | nil => simp [lookupA] at h
  | cons kv l ih =>
      obtain ⟨a, w⟩ := kv
      by_cases ha : k = a
      · simp [ha]
      · rw [lookupA, if_neg ha] at h
        exact List.mem_cons_of_mem _ (ih h)

theorem le_foldr_max (l : List Nat) (x : Nat) (hx : x ∈ l) :
    x ≤ l.foldr max 0 := by
  induction l with
  | nil => simp at hx
  | cons y l ih =>
      rcases List.mem_cons.mp hx with h1 | h1
      · simp [h1, List.foldr, le_max_iff]
      · exact le_trans (ih h1) (by simp [List.foldr, le_max_iff])

theorem lookupA_freshFd (s : DM) : lookupA s.fd2path (freshFd s) = none := by
  cases h : lookupA s.fd2path (freshFd s) with
  | none => rfl
  | some p =>
      have hmem := lookupA_mem_keys h
      have hle := le_foldr_max (s.fd2path.map Prod.fst) _ hmem
      simp only [freshFd] at hle
      omega

theorem OftInv_initDM : OftInv initDM := by
  refine ⟨fun p fd => ?_, by simp [initDM], by simp [initDM]⟩
  simp [initDM, lookupA]

theorem OftInv_open_file {fsys : FileSys} {s : DM} {path : String}
    {fd : Nat} {s' : DM} (hinv : OftInv s)
    (h : open_file fsys s path = Except.ok (fd, s')) : OftInv s' := by
  unfold open_file at h
  by_cases hf : is_file fsys path = false
  · rw [if_pos hf] at h
    exact Except.noConfusion h
  · rw [if_neg hf] at h
    cases hfind : lookupA s.path2fd path with
    | some fd0 =>
        rw [hfind] at h
        simp only [Except.ok.injEq, Prod.mk.injEq] at h
        obtain ⟨-, rfl⟩ := h
        exact hinv
    | none =>
        rw [hfind] at h
        simp only [Except.ok.injEq, Prod.mk.injEq] at h
        obtain ⟨-, rfl⟩ := h
        obtain ⟨hiff, hn1, hn2⟩ := hinv
        have hfresh : lookupA s.fd2path (freshFd s) = none := lookupA_freshFd s
        refine ⟨?_, nodup_keys_insertA _ _ _ hn1, nodup_keys_insertA _ _ _ hn2⟩
        intro p fd'
        by_cases hp : p = path
        · rw [hp, lookupA_insertA_self]
          by_cases hfd' : fd' = freshFd s
          · rw [hfd', lookupA_insertA_self]
            simp
          · rw [lookupA_insertA_ne _ _ hfd']
            constructor
            · intro hx
              exact ((hfd' (Option.some.inj hx).symm)).elim
            · intro hx
              have hy := (hiff path fd').mpr hx
              rw [hfind] at hy
              exact Option.noConfusion hy
        · rw [lookupA_insertA_ne _ _ hp]
          by_cases hfd' : fd' = freshFd s
          · rw [hfd', lookupA_insertA_self]
            constructor
            · intro hx
              have hy := (hiff p (freshFd s)).mp hx
              rw [hfresh] at hy
              exact Option.noConfusion hy
            · intro hx
              exact ((hp (Option.some.inj hx).symm)).elim
          · rw [lookupA_insertA_ne _ _ hfd']
            exact hiff p fd'

theorem OftInv_close_file {s : DM} {fd : Nat} {s' : DM} (hinv : OftInv s)
    (h : close_file s fd = Except.ok s') : OftInv s' := by
  unfold close_file at h
  cases hfind : lookupA s.fd2path fd with
  | none =>
      rw [hfind] at h
      exact Except.noConfusion h
  | some path0 =>
      rw [hfind] at h
      simp only [Except.ok.injEq] at h
      subst h
      obtain ⟨hiff, hn1, hn2⟩ := hinv
      refine ⟨?_, nodup_keys_eraseA _ _ hn1, nodup_keys_eraseA _ _ hn2⟩
      intro p fd'
      by_cases hp : p = path0
      · rw [hp, lookupA_eraseA_self]
        by_cases hfd' : fd' = fd
        · rw [hfd', lookupA_eraseA_self]
          simp
        · rw [lookupA_eraseA_ne _ hfd']
          constructor
          · intro hx
            exact Option.noConfusion hx
          · intro hx
            have h1 := (hiff path0 fd').mpr hx
            have h2 := (hiff path0 fd).mpr hfind
            rw [h2] at h1
            exact ((hfd' (Option.some.inj h1).symm)).elim
      · rw [lookupA_eraseA_ne _ hp]
        by_cases hfd' : fd' = fd
        · rw [hfd', lookupA_eraseA_self]
          constructor
          · intro hx
            have hy := (hiff p fd).mp hx
            rw [hfind] at hy
            exact ((hp (Option.some.inj hy).symm)).elim
          · intro hx
            exact Option.noConfusion hx
        · rw [lookupA_eraseA_ne _ hfd']
          exact hiff p fd'

theorem OftInv_runFileOps (fsys : FileSys) (s : DM) (hinv : OftInv s)
    (ops : List FileOp) : OftInv (runFileOps fsys s ops) := by
  induction ops generalizing s with
  | nil => exact hinv
  | cons op ops ih =>
      refine ih _ ?_
      cases op with
      | openOp p =>
          simp only [applyFileOp]
          cases h : open_file fsys s p with
          | ok r => exact OftInv_open_file hinv h
          | error e => exact hinv
      | closeOp fd =>
          simp only [applyFileOp]
          cases h : close_file s fd with
          | ok s' => exact OftInv_close_file hinv h
          | error e => exact hinv


/-!
### Claim theorems: page I/O and page allocation
-/

/-- C2 (counterexample): `write_page` with a successful `lseek` and a `write`
syscall that transfers 0 of the 3 requested bytes (a short write, return
value 0 with 0 < 3) returns success rather than failing with an IOError. -/
theorem write_page_short_write_returns_ok :
    (0 : Int) < 3 ∧ write_page [] 0 [1, 2, 3] 3 0 0 = Except.ok [] := by
  exact ⟨by decide, rfl⟩

/-- C2 (amended): `write_page` and `read_page` (preconditions buffer non-null
and `n ≤ PAGE_SIZE`) fail with an IOError (`UnixError`) exactly when the
`lseek` or the `write`/`read` syscall reports an OS-level failure (negative
return value); a short transfer with a non-negative return value is not
detected and the call returns success. -/
theorem page_io_error_iff_os_failure (file : List Nat) (page_no n : Nat)
    (data : List Nat) (hn : n ≤ PAGE_SIZE) (lseekRet ioRet : Int) :
    (write_page file page_no data n lseekRet ioRet =
        Except.error DbError.unixError ↔ lseekRet < 0 ∨ ioRet < 0) ∧
    (read_page file page_no n lseekRet ioRet =
        Except.error DbError.unixError ↔ lseekRet < 0 ∨ ioRet < 0) := by
  constructor
  · by_cases h1 : lseekRet < 0
    · simp [write_page, h1]
    · by_cases h2 : ioRet < 0 <;> simp [write_page, h1, h2]
  · by_cases h1 : lseekRet < 0
    · simp [read_page, h1]
    · by_cases h2 : ioRet < 0 <;> simp [read_page, h1, h2]

/-- Witness for the amended C2 theorem at a concrete input. -/
theorem page_io_error_iff_os_failure_witness :
    3 ≤ PAGE_SIZE ∧
    (write_page [] 0 [1, 2, 3] 3 (-1) 3 =
        Except.error DbError.unixError ↔ (-1 : Int) < 0 ∨ (3 : Int) < 0) := by
  exact ⟨by decide, (page_io_error_iff_os_failure [] 0 3 [1, 2, 3]
    (by decide) (-1) 3).1⟩

/-- C9: for `n ≤ PAGE_SIZE` and data of length `n`, `write_page` followed by
`read_page` on the same page returns exactly the written data; both
operations address byte offset `page_no * PAGE_SIZE` (visible in the
`writeBytes` offset of the stated equations). -/
theorem write_page_read_page_roundtrip (file data : List Nat)
    (page_no n : Nat) (hn : n ≤ PAGE_SIZE) (hlen : data.length = n) :
    write_page file page_no data n ((page_no * PAGE_SIZE : Nat) : Int)
        ((n : Nat) : Int) =
      Except.ok (writeBytes file (page_no * PAGE_SIZE) data) ∧
    read_page (writeBytes file (page_no * PAGE_SIZE) data) page_no n
        ((page_no * PAGE_SIZE : Nat) : Int) ((n : Nat) : Int) =
      Except.ok data := by
  subst hlen
  have h1 : ¬((page_no * PAGE_SIZE : Nat) : Int) < 0 :=
    not_lt.mpr (Int.natCast_nonneg _)
  have h2 : ¬((data.length : Nat) : Int) < 0 :=
    not_lt.mpr (Int.natCast_nonneg _)
  constructor
  · rw [write_page, if_neg h1, if_neg h2]
    simp
  · rw [read_page, if_neg h1, if_neg h2]
    rw [readBytes_writeBytes]
    simp

/-- Witness for the C9 theorem at a concrete input. -/
theorem write_page_read_page_roundtrip_witness :
    3 ≤ PAGE_SIZE ∧
    read_page (writeBytes [] (0 * PAGE_SIZE) [1, 2, 3]) 0 3
        ((0 * PAGE_SIZE : Nat) : Int) ((3 : Nat) : Int) =
      Except.ok [1, 2, 3] := by
  exact ⟨by decide, (write_page_read_page_roundtrip [] [1, 2, 3] 0 3
    (by decide) rfl).2⟩

/-- C7: `AllocatePage` returns the handle's current counter and increments
it; `k` successive calls on the same handle return the `k` consecutive —
hence distinct and strictly increasing — integers starting at the handle's
current counter value, which is 0 for a fresh manager. Precondition: the
assert `fd < MAX_FD`. -/
theorem allocatePage_counter_spec (tbl : Nat → Nat) (fd k : Nat)
    (h : fd < MAX_FD) :
    (AllocatePage tbl fd).1 = tbl fd ∧
    (AllocatePage tbl fd).2 fd = tbl fd + 1 ∧
    (allocRun tbl fd k).1 = List.range' (tbl fd) k ∧
    ((allocRun tbl fd k).1).Nodup ∧
    List.Pairwise (· < ·) (allocRun tbl fd k).1 ∧
    (allocRun initPageTable fd k).1 = List.range k := by
  refine ⟨rfl, by simp [AllocatePage], allocRun_eq_range' tbl fd k, ?_, ?_, ?_⟩
  · rw [allocRun_eq_range']
    exact List.nodup_range' _ _
  · rw [allocRun_eq_range']
    exact List.pairwise_lt_range' _ _
  · rw [allocRun_eq_range']
    simp [initPageTable, List.range_eq_range']

/-- Witness for the C7 theorem at a concrete input. -/
theorem allocatePage_counter_spec_witness :
    1 < MAX_FD ∧ (allocRun initPageTable 1 3).1 = List.range 3 := by
  exact ⟨by decide, (allocatePage_counter_spec initPageTable 1 3
    (by decide)).2.2.2.2.2⟩

/-!
### Claim theorems: Open File Table
-/

/-- C3: after every sequence of `open_file` / `close_file` operations from a
fresh manager, the Open File Table satisfies its invariant — the path-to-fd
and fd-to-path maps are mutual inverses with key-unique directions (a path is
open at most once, a descriptor names exactly one path) — and any successful
close of a descriptor removes both mapping directions together. -/
theorem openFileTable_invariant (fsys : FileSys) (ops : List FileOp) :
    OftInv (runFileOps fsys initDM ops) ∧
    (∀ fd s', close_file (runFileOps fsys initDM ops) fd = Except.ok s' →
      lookupA s'.fd2path fd = none ∧
      ∀ p, lookupA (runFileOps fsys initDM ops).fd2path fd = some p →
        lookupA s'.path2fd p = none) := by
  refine ⟨OftInv_runFileOps fsys initDM OftInv_initDM ops, ?_⟩
  intro fd s' h
  unfold close_file at h
  cases hfind : lookupA (runFileOps fsys initDM ops).fd2path fd with
  | none =>
      rw [hfind] at h
      exact Except.noConfusion h
  | some p0 =>
      rw [hfind] at h
      simp only [Except.ok.injEq] at h
      subst h
      refine ⟨lookupA_eraseA_self _ _, ?_⟩
      intro p hp
      obtain rfl := Option.some.inj hp
      exact lookupA_eraseA_self _ _

/-- Witness for the C3 theorem at a concrete input: open a file, then close
its descriptor, on a one-file filesystem. -/
theorem openFileTable_invariant_witness :
    OftInv (runFileOps [("a", [7])] initDM
      [FileOp.openOp "a", FileOp.closeOp 1]) := by
  exact (openFileTable_invariant [("a", [7])]
    [FileOp.openOp "a", FileOp.closeOp 1]).1

/-- C8: for a path that exists as a regular file, opening twice without
closing returns the same handle both times (and the second open does not
change the table); closing once removes the path and the handle from the
table; closing the same handle again fails with `FileNotOpen`; and opening
any path that is not a regular file fails with `FileNotFound`. -/
theorem open_twice_close_twice (fsys : FileSys) (s : DM) (path : String)
    (hinv : OftInv s) (hfile : is_file fsys path = true) :
    (∃ fd s1, open_file fsys s path = Except.ok (fd, s1) ∧
      open_file fsys s1 path = Except.ok (fd, s1) ∧
      ∃ s2, close_file s1 fd = Except.ok s2 ∧
        lookupA s2.path2fd path = none ∧ lookupA s2.fd2path fd = none ∧
        close_file s2 fd = Except.error (DbError.fileNotOpen fd)) ∧
    (∀ q, is_file fsys q = false →
      open_file fsys s q = Except.error (DbError.fileNotFound q)) := by
  have hnf : ¬ is_file fsys path = false := by rw [hfile]; decide
  constructor
  · cases hfind : lookupA s.path2fd path with
    | none =>
        refine ⟨freshFd s,
          ⟨insertA s.path2fd path (freshFd s),
           insertA s.fd2path (freshFd s) path⟩, ?_, ?_, ?_⟩
        · rw [open_file, if_neg hnf, hfind]
        · rw [open_file, if_neg hnf, lookupA_insertA_self]
        · refine ⟨⟨eraseA (insertA s.path2fd path (freshFd s)) path,
            eraseA (insertA s.fd2path (freshFd s) path) (freshFd s)⟩, ?_,
            lookupA_eraseA_self _ _, lookupA_eraseA_self _ _, ?_⟩
          · rw [close_file, lookupA_insertA_self]
          · rw [close_file, lookupA_eraseA_self]
    | some fd0 =>
        have hback : lookupA s.fd2path fd0 = some path :=
          (hinv.1 path fd0).mp hfind
        refine ⟨fd0, s, ?_, ?_, ?_⟩
        · rw [open_file, if_neg hnf, hfind]
        · rw [open_file, if_neg hnf, hfind]
        · refine ⟨⟨eraseA s.path2fd path, eraseA s.fd2path fd0⟩, ?_,
            lookupA_eraseA_self _ _, lookupA_eraseA_self _ _, ?_⟩
          · rw [close_file, hback]
          · rw [close_file, lookupA_eraseA_self]
  · intro q hq
    rw [open_file, if_pos hq]

/-- Witness for the C8 theorem at a concrete input. -/
theorem open_twice_close_twice_witness :
    OftInv initDM ∧ is_file [("a", [7])] "a" = true ∧
    open_file [("a", [7])] initDM "b" =
      Except.error (DbError.fileNotFound "b") := by
  refine ⟨OftInv_initDM, by decide, ?_⟩
  exact (open_twice_close_twice [("a", [7])] initDM "a" OftInv_initDM
    (by decide)).2 "b" (by decide)

/-!
### Claim theorems: log stream
-/

theorem ensureLogOpen_ok (m : LogMgr) (content : List Nat)
    (h : lookupA m.fsys LOG_FILE_NAME = some content) :
    ∃ m1, ensureLogOpen m = Except.ok m1 ∧ m1.fsys = m.fsys := by
  unfold ensureLogOpen
  cases hfd : m.log_fd with
  | some fd => exact ⟨m, rfl, rfl⟩
  | none =>
      have hf : ¬ is_file m.fsys LOG_FILE_NAME = false := by
        unfold is_file
        rw [h]
        simp
      unfold open_file
      rw [if_neg hf]
      cases hlk : lookupA m.dm.path2fd LOG_FILE_NAME with
      | none => exact ⟨_, rfl, rfl⟩
      | some fd => exact ⟨_, rfl, rfl⟩

/-- C6: `ReadLog` computes the absolute offset `offset + prev_log_end`; if it
is at or beyond the current log-file size it returns false (no data) without
an error; otherwise it clamps `size` to the remaining bytes and, when the
`read` syscall delivers that clamped count, returns true with exactly that
many bytes — and fails with an IOError (`UnixError`) when the read is short
(the syscall returns any other count). -/
theorem readLog_spec (m : LogMgr) (size offset prev readRet : Int)
    (content : List Nat)
    (hlog : lookupA m.fsys LOG_FILE_NAME = some content)
    (hsize : 0 ≤ size) (hoff : 0 ≤ offset) (hprev : 0 ≤ prev) :
    ((content.length : Int) ≤ offset + prev →
      ∃ m1, ReadLog m size offset prev readRet = Except.ok (false, [], m1)) ∧
    (offset + prev < (content.length : Int) →
      (readRet = min size ((content.length : Int) - (offset + prev)) →
        ∃ m1, ReadLog m size offset prev readRet =
          Except.ok (true,
            readBytes content (offset + prev).toNat
              (min size ((content.length : Int) - (offset + prev))).toNat,
            m1) ∧
          ((readBytes content (offset + prev).toNat
              (min size ((content.length : Int) -
                (offset + prev))).toNat).length : Int) =
            min size ((content.length : Int) - (offset + prev))) ∧
      (readRet ≠ min size ((content.length : Int) - (offset + prev)) →
        ReadLog m size offset prev readRet =
          Except.error DbError.unixError)) := by
  obtain ⟨m1, hm1, hfs⟩ := ensureLogOpen_ok m content hlog
  have hglen : GetFileSize m1.fsys LOG_FILE_NAME = (content.length : Int) := by
    unfold GetFileSize
    rw [hfs, hlog]
  have hlc : logContents m1 = content := by
    unfold logContents
    rw [hfs, hlog]
    rfl
  unfold ReadLog
  rw [hm1]
  simp only [hglen, hlc]
  constructor
  · intro hge
    rw [if_pos hge]
    exact ⟨m1, rfl⟩
  · intro hlt
    rw [if_neg (not_le.mpr hlt)]
    constructor
    · intro hrr
      rw [if_neg (not_not_intro hrr)]
      refine ⟨m1, ?_, ?_⟩
      · rw [hrr]
        simp [readBytes, List.take_take]
      · simp only [readBytes, List.length_take, List.length_drop]
        omega
    · intro hne
      rw [if_pos hne]

/-- Witness for the C6 theorem at a concrete input (absolute offset beyond
the file size: no data, no error). -/
theorem readLog_spec_witness :
    lookupA [(LOG_FILE_NAME, [1, 2, 3])] LOG_FILE_NAME = some [1, 2, 3] ∧
    ∃ m1, ReadLog ⟨[(LOG_FILE_NAME, [1, 2, 3])], initDM, some 5⟩ 2 5 0 2 =
      Except.ok (false, [], m1) := by
  refine ⟨by decide, ?_⟩
  exact (readLog_spec ⟨[(LOG_FILE_NAME, [1, 2, 3])], initDM, some 5⟩ 2 5 0 2
    [1, 2, 3] (by decide) (by decide) (by decide) (by decide)).1 (by decide)

/-- C10: when the log file does not exist on disk and `log_fd_` is still
`-1`, the lazy `open_file(LOG_FILE_NAME)` fails with `FileNotFound`: so
`ReadLog` propagates that error instead of reporting "no data" (false), and
`WriteLog` propagates it too — it does not create the log file (its only
success path goes through a successful open, and `open` without `O_CREAT`
creates nothing). -/
theorem log_missing_file_not_found (m : LogMgr)
    (size offset prev readRet writeRet : Int) (data : List Nat)
    (hfd : m.log_fd = none)
    (hmiss : lookupA m.fsys LOG_FILE_NAME = none) :
    ReadLog m size offset prev readRet =
      Except.error (DbError.fileNotFound LOG_FILE_NAME) ∧
    WriteLog m data size writeRet =
      Except.error (DbError.fileNotFound LOG_FILE_NAME) := by
  have hopen : ensureLogOpen m =
      Except.error (DbError.fileNotFound LOG_FILE_NAME) := by
    unfold ensureLogOpen
    rw [hfd]
    unfold open_file is_file
    rw [hmiss]
    rfl
  constructor
  · unfold ReadLog
    rw [hopen]
  · unfold WriteLog
    rw [hopen]

/-- Witness for the C10 theorem at a concrete input. -/
theorem log_missing_file_not_found_witness :
    (⟨[], initDM, none⟩ : LogMgr).log_fd = none ∧
    ReadLog ⟨[], initDM, none⟩ 1 0 0 1 =
      Except.error (DbError.fileNotFound LOG_FILE_NAME) := by
  exact ⟨rfl, (log_missing_file_not_found ⟨[], initDM, none⟩ 1 0 0 1 1 []
    rfl rfl).1⟩

namespace RmDb

theorem get_record_ok {heap : List (Rid × List Nat)} {rid : Rid}
    {rec : List Nat} :
    get_record heap rid = Except.ok rec ↔ lookupA heap rid = some rec := by
  unfold get_record
  cases hl : lookupA heap rid with
  | none => simp
  | some r => simp

theorem delete_record_eq {heap : List (Rid × List Nat)} {rid : Rid}
    {rec : List Nat} (h : lookupA heap rid = some rec) :
    delete_record heap rid = Except.ok (eraseA heap rid) := by
  unfold delete_record
  rw [h]

theorem delete_entry_ok {ix : IxEntries} {key : List Nat} {rid : Rid}
    {ix' : IxEntries} :
    delete_entry ix key rid = Except.ok ix' ↔
      (key, rid) ∈ ix ∧ ix' = ix.erase (key, rid) := by
  unfold delete_entry
  by_cases hm : (key, rid) ∈ ix <;> simp [hm, eq_comm]

theorem delete_entry_absent {ix : IxEntries} {key : List Nat} {rid : Rid}
    (h : (key, rid) ∉ ix) :
    delete_entry ix key rid = Except.error DbError.keyNotFound := by
  unfold delete_entry
  rw [if_neg h]

/-- Characterization of a successful `deleteOne` step. -/
theorem deleteOne_ok {tab : TabMeta} {tname : String} {st : ExecState}
    {rid : Rid} {st' : ExecState}
    (h : deleteOne tab tname st rid = Except.ok st') :
    ∃ rec ixs' evs, lookupA st.heap rid = some rec ∧
      deleteFromIndexes rec rid 0 tab.cols st.indexes =
        Except.ok (ixs', evs) ∧
      st' = ⟨eraseA st.heap rid, ixs',
        st.writes ++ [⟨WType.DELETE_TUPLE, tname, rid, rec⟩],
        st.trace ++ (Ev.fetch rid :: evs) ++
          [Ev.heapDelete rid, Ev.appendWrite rid]⟩ := by
  unfold deleteOne at h
  split at h
  · exact Except.noConfusion h
  · rename_i rec hg
    split at h
    · exact Except.noConfusion h
    · rename_i ixs' evs hdf
      split at h
      · exact Except.noConfusion h
      · rename_i heap' hdr
        have hl : lookupA st.heap rid = some rec := get_record_ok.mp hg
        have hh : heap' = eraseA st.heap rid := by
          have hx := delete_record_eq hl
          rw [hdr] at hx
          exact Except.ok.inj hx
        obtain rfl := Except.ok.inj h
        refine ⟨rec, ixs', evs, hl, hdf, ?_⟩
        rw [hh]
        rfl

/-- A successful index pass preserves the per-column alignment and emits
exactly one index-deletion event per indexed column, in column order. -/
theorem deleteFromIndexes_ok_events {rec : List Nat} {rid : Rid} :
    ∀ (i : Nat) (cols : List ColMeta) (ixs ixs' : List IxEntries)
      (evs : List Ev),
      ixs.length = cols.length →
      deleteFromIndexes rec rid i cols ixs = Except.ok (ixs', evs) →
      ixs'.length = cols.length ∧
        evs = (indexedPos i cols).map (Ev.idxDelete rid)
  | i, [], ixs, ixs', evs, hlen, h => by
      unfold deleteFromIndexes at h
      obtain ⟨h1, h2⟩ := Prod.mk.inj (Except.ok.inj h)
      subst h1
      subst h2
      exact ⟨hlen, rfl⟩
  | i, c :: cs, [], ixs', evs, hlen, h => by
      simp at hlen
  | i, c :: cs, ix :: ixs, ixs', evs, hlen, h => by
      have hlen' : ixs.length = cs.length := by
        simp only [List.length_cons] at hlen
        omega
      unfold deleteFromIndexes at h
      by_cases hc : c.index
      · rw [if_pos hc] at h
        split at h
        · exact Except.noConfusion h
        · rename_i ix0 hde
          split at h
          · exact Except.noConfusion h
          · rename_i ixs1 evs1 hdf
            obtain ⟨h1, h2⟩ := Prod.mk.inj (Except.ok.inj h)
            subst h1
            subst h2
            obtain ⟨hlen1, hevs1⟩ :=
              deleteFromIndexes_ok_events (i + 1) cs ixs ixs1 evs1 hlen' hdf
            refine ⟨by simp [hlen1], ?_⟩
            rw [indexedPos, if_pos hc, List.map_cons, hevs1]
      · rw [if_neg hc] at h
        split at h
        · exact Except.noConfusion h
        · rename_i ixs1 evs1 hdf
          obtain ⟨h1, h2⟩ := Prod.mk.inj (Except.ok.inj h)
          subst h1
          subst h2
          obtain ⟨hlen1, hevs1⟩ :=
            deleteFromIndexes_ok_events (i + 1) cs ixs ixs1 evs1 hlen' hdf
          refine ⟨by simp [hlen1], ?_⟩
          rw [indexedPos, if_neg hc, hevs1]

end RmDb

namespace RmDb

/-- Per-column effect of a successful index pass: an indexed column's index
loses exactly the (key, rid) entry — which had to be present — and a
non-indexed column's index is untouched. -/
theorem deleteFromIndexes_ok_get {rec : List Nat} {rid : Rid} :
    ∀ (i : Nat) (cols : List ColMeta) (ixs ixs' : List IxEntries)
      (evs : List Ev),
      deleteFromIndexes rec rid i cols ixs = Except.ok (ixs', evs) →
      ∀ j c, cols.get? j = some c →
        ∀ ix, ixs.get? j = some ix →
          (c.index = true →
            (colKey rec c, rid) ∈ ix ∧
            ixs'.get? j = some (ix.erase (colKey rec c, rid))) ∧
          (c.index = false → ixs'.get? j = some ix)
  | _, [], _, _, _, _, j, c, hc, _, _ => by simp at hc
  | _, c0 :: cs, [], _, _, _, j, c, hc, ix, hix => by simp at hix
  | i, c0 :: cs, ix0 :: ixs, ixs', evs, h, j, c, hc, ix, hix => by
      unfold deleteFromIndexes at h
      by_cases hc0 : c0.index = true
      · rw [if_pos hc0] at h
        split at h
        · exact Except.noConfusion h
        · rename_i ix1 hde
          split at h
          · exact Except.noConfusion h
          · rename_i ixs1 evs1 hdf
            obtain ⟨h1, h2⟩ := Prod.mk.inj (Except.ok.inj h)
            subst h1
            subst h2
            cases j with
            | zero =>
                obtain rfl : c0 = c := by simpa using hc
                obtain rfl : ix0 = ix := by simpa using hix
                obtain ⟨hmem, hix1⟩ := delete_entry_ok.mp hde
                constructor
                · intro _
                  exact ⟨hmem, by simp [hix1]⟩
                · intro hfalse
                  rw [hfalse] at hc0
                  exact Bool.noConfusion hc0
            | succ j =>
                have hg := deleteFromIndexes_ok_get (i + 1) cs ixs ixs1 evs1
                  hdf j c (by simpa using hc) ix (by simpa using hix)
                simpa using hg
      · rw [if_neg hc0] at h
        split at h
        · exact Except.noConfusion h
        · rename_i ixs1 evs1 hdf
          obtain ⟨h1, h2⟩ := Prod.mk.inj (Except.ok.inj h)
          subst h1
          subst h2
          cases j with
          | zero =>
              obtain rfl : c0 = c := by simpa using hc
              obtain rfl : ix0 = ix := by simpa using hix
              constructor
              · intro htrue
                exact absurd htrue hc0
              · intro _
                simp
          | succ j =>
              have hg := deleteFromIndexes_ok_get (i + 1) cs ixs ixs1 evs1
                hdf j c (by simpa using hc) ix (by simpa using hix)
              simpa using hg

/-- If some indexed column's (key, rid) entry is absent, the index pass
fails with `KeyNotFound`. -/
theorem deleteFromIndexes_absent {rec : List Nat} {rid : Rid} :
    ∀ (i : Nat) (cols : List ColMeta) (ixs : List IxEntries) (j : Nat)
      (c : ColMeta) (ix : IxEntries),
      cols.get? j = some c → c.index = true → ixs.get? j = some ix →
      (colKey rec c, rid) ∉ ix →
      deleteFromIndexes rec rid i cols ixs =
        Except.error DbError.keyNotFound
  | _, [], _, j, c, _, hc, _, _, _ => by simp at hc
  | _, c0 :: cs, [], j, c, ix, hc, hi, hix, hmem => by simp at hix
  | i, c0 :: cs, ix0 :: ixs, j, c, ix, hc, hi, hix, hmem => by
      unfold deleteFromIndexes
      cases j with
      | zero =>
          obtain rfl : c0 = c := by simpa using hc
          obtain rfl : ix0 = ix := by simpa using hix
          rw [if_pos hi, delete_entry_absent hmem]
      | succ j =>
          have hrec := deleteFromIndexes_absent (i + 1) cs ixs j c ix
            (by simpa using hc) hi (by simpa using hix) hmem
          by_cases hc0 : c0.index = true
          · rw [if_pos hc0]
            cases hde : delete_entry ix0 (colKey rec c0) rid with
            | error e =>
                have he : e = DbError.keyNotFound := by
                  unfold delete_entry at hde
                  by_cases hm : (colKey rec c0, rid) ∈ ix0
                  · rw [if_pos hm] at hde
                    exact Except.noConfusion hde
                  · rw [if_neg hm] at hde
                    exact (Except.error.inj hde).symm
                rw [he]
            | ok ix1 =>
                rw [hrec]
          · rw [if_neg hc0]
            rw [hrec]

end RmDb

namespace RmDb

/-- C1: in one per-rid step of the Delete Operator, for every column flagged
as indexed (with the index contents aligned to the column list): on success
the entry keyed by that column's encoded byte range within the fetched row,
paired with this rid, was present in that column's index and is removed from
it; and if that entry is absent the call fails with `KeyNotFound`. The index
facade itself is modelled from the spec. -/
theorem deleteExecutor_index_deletes (tab : TabMeta) (tname : String)
    (st : ExecState) (rid : Rid)
    (hlen : st.indexes.length = tab.cols.length) :
    (∀ st', deleteOne tab tname st rid = Except.ok st' →
      ∀ i c, tab.cols.get? i = some c → c.index = true →
        ∃ rec ix, lookupA st.heap rid = some rec ∧
          st.indexes.get? i = some ix ∧
          (colKey rec c, rid) ∈ ix ∧
          st'.indexes.get? i = some (ix.erase (colKey rec c, rid))) ∧
    (∀ rec i c ix, lookupA st.heap rid = some rec →
      tab.cols.get? i = some c → c.index = true →
      st.indexes.get? i = some ix →
      (colKey rec c, rid) ∉ ix →
      deleteOne tab tname st rid = Except.error DbError.keyNotFound) := by
  constructor
  · intro st' h i c hc hcidx
    obtain ⟨rec, ixs', evs, hl, hdf, rfl⟩ := deleteOne_ok h
    cases hix : st.indexes.get? i with
    | none =>
        exfalso
        have h1 : st.indexes.length ≤ i := List.get?_eq_none.mp hix
        have h2 : ¬ tab.cols.length ≤ i := by
          intro hle
          rw [List.get?_eq_none.mpr hle] at hc
          exact Option.noConfusion hc
        omega
    | some ix =>
        have hg := (deleteFromIndexes_ok_get 0 tab.cols st.indexes ixs' evs
          hdf i c hc ix hix).1 hcidx
        exact ⟨rec, ix, hl, rfl, hg.1, hg.2⟩
  · intro rec i c ix hl hc hcidx hix hmem
    unfold deleteOne
    split
    · rename_i e heq
      rw [get_record_ok.mpr hl] at heq
      exact Except.noConfusion heq
    · rename_i rec' heq
      obtain rfl : rec = rec' := by
        rw [get_record_ok.mpr hl] at heq
        exact Except.ok.inj heq
      have habs := deleteFromIndexes_absent 0 tab.cols st.indexes i c ix
        hc hcidx hix hmem
      split
      · rename_i e heq2
        rw [habs] at heq2
        rw [(Except.error.inj heq2).symm]
      · rename_i ixs' evs heq2
        rw [habs] at heq2
        exact Except.noConfusion heq2

/-- Witness for the C1 theorem: one indexed column, one row, the index holds
exactly the row's entry; the step removes it. -/
theorem deleteExecutor_index_deletes_witness :
    ([[([5], (⟨0, 0⟩ : Rid))]] : List IxEntries).length =
      ([⟨0, 1, true⟩] : List ColMeta).length ∧
    ∃ rec ix,
      lookupA [((⟨0, 0⟩ : Rid), [5])] (⟨0, 0⟩ : Rid) = some rec ∧
      ([[([5], (⟨0, 0⟩ : Rid))]] : List IxEntries).get? 0 = some ix ∧
      (colKey rec ⟨0, 1, true⟩, (⟨0, 0⟩ : Rid)) ∈ ix ∧
      (⟨[], [[]],
        [⟨WType.DELETE_TUPLE, "T", ⟨0, 0⟩, [5]⟩],
        [Ev.fetch ⟨0, 0⟩, Ev.idxDelete ⟨0, 0⟩ 0, Ev.heapDelete ⟨0, 0⟩,
         Ev.appendWrite ⟨0, 0⟩]⟩ : ExecState).indexes.get? 0 =
        some (ix.erase (colKey rec ⟨0, 1, true⟩, ⟨0, 0⟩)) := by
  refine ⟨rfl, ?_⟩
  exact (deleteExecutor_index_deletes ⟨[⟨0, 1, true⟩]⟩ "T"
    ⟨[(⟨0, 0⟩, [5])], [[([5], ⟨0, 0⟩)]], [], []⟩ ⟨0, 0⟩ rfl).1
    ⟨[], [[]],
      [⟨WType.DELETE_TUPLE, "T", ⟨0, 0⟩, [5]⟩],
      [Ev.fetch ⟨0, 0⟩, Ev.idxDelete ⟨0, 0⟩ 0, Ev.heapDelete ⟨0, 0⟩,
       Ev.appendWrite ⟨0, 0⟩]⟩ rfl 0 ⟨0, 1, true⟩ rfl rfl

end RmDb

namespace RmDb

/-- C4: a successful Delete Operator invocation over rid list `rids` appends
exactly `rids.length` write records to the transaction's list, in rid order,
the i-th being a DELETE_TUPLE record carrying the table name, the i-th rid,
and that row's pre-delete bytes. -/
theorem deleteNext_write_records (tab : TabMeta) (tname : String) :
    ∀ (rids : List Rid) (st st' : ExecState),
      DeleteNext tab tname st rids = Except.ok st' →
      ∃ recs : List (List Nat), recs.length = rids.length ∧
        (∀ p ∈ rids.zip recs, lookupA st.heap p.1 = some p.2) ∧
        st'.writes = st.writes ++ (rids.zip recs).map
          (fun p => ⟨WType.DELETE_TUPLE, tname, p.1, p.2⟩) ∧
        st'.writes.length = st.writes.length + rids.length
  | [], st, st', h => by
      unfold DeleteNext at h
      obtain rfl := Except.ok.inj h
      exact ⟨[], rfl, by simp, by simp, by simp⟩
  | r :: rs, st, st', h => by
      unfold DeleteNext at h
      split at h
      · exact Except.noConfusion h
      · rename_i st1 hdo
        obtain ⟨rec, ixs', evs, hl, hdf, rfl⟩ := deleteOne_ok hdo
        obtain ⟨recs, hrl, hmem, hw, hwl⟩ :=
          deleteNext_write_records tab tname rs _ st' h
        refine ⟨rec :: recs, by simp [hrl], ?_, ?_, ?_⟩
        · intro p hp
          rcases (by simpa using hp :
              p = (r, rec) ∨ p ∈ rs.zip recs) with rfl | hp'
          · exact hl
          · exact lookupA_eraseA_some (hmem p hp')
        · rw [hw]
          simp [AppendWriteRecord]
        · rw [hwl]
          simp [AppendWriteRecord]
          omega

/-- Witness for the C4 theorem: deleting the single row `(0,0) ↦ [7]` of an
index-free table appends exactly its DELETE_TUPLE record. -/
theorem deleteNext_write_records_witness :
    ∃ recs : List (List Nat), recs.length = ([(⟨0, 0⟩ : Rid)]).length ∧
      (∀ p ∈ ([(⟨0, 0⟩ : Rid)]).zip recs,
        lookupA [((⟨0, 0⟩ : Rid), [7])] p.1 = some p.2) ∧
      (⟨[], [],
        [⟨WType.DELETE_TUPLE, "T", ⟨0, 0⟩, [7]⟩],
        [Ev.fetch ⟨0, 0⟩, Ev.heapDelete ⟨0, 0⟩, Ev.appendWrite ⟨0, 0⟩]⟩ :
          ExecState).writes =
        ([] : List WriteRecord) ++ (([(⟨0, 0⟩ : Rid)]).zip recs).map
          (fun p => ⟨WType.DELETE_TUPLE, "T", p.1, p.2⟩) ∧
      (⟨[], [],
        [⟨WType.DELETE_TUPLE, "T", ⟨0, 0⟩, [7]⟩],
        [Ev.fetch ⟨0, 0⟩, Ev.heapDelete ⟨0, 0⟩, Ev.appendWrite ⟨0, 0⟩]⟩ :
          ExecState).writes.length =
        ([] : List WriteRecord).length + ([(⟨0, 0⟩ : Rid)]).length := by
  exact deleteNext_write_records ⟨[]⟩ "T" [⟨0, 0⟩]
    ⟨[(⟨0, 0⟩, [7])], [], [], []⟩
    ⟨[], [],
      [⟨WType.DELETE_TUPLE, "T", ⟨0, 0⟩, [7]⟩],
      [Ev.fetch ⟨0, 0⟩, Ev.heapDelete ⟨0, 0⟩, Ev.appendWrite ⟨0, 0⟩]⟩ rfl

end RmDb

namespace RmDb

/-- A successful invocation finds every rid in the starting heap, and the rid
list contains no duplicates (a duplicate would make its second fetch fail). -/
theorem deleteNext_ok_facts (tab : TabMeta) (tname : String) :
    ∀ (rids : List Rid) (st st' : ExecState),
      DeleteNext tab tname st rids = Except.ok st' →
      (∀ r ∈ rids, (lookupA st.heap r).isSome) ∧ rids.Nodup
  | [], st, st', h => ⟨by simp, List.nodup_nil⟩
  | r :: rs, st, st', h => by
      unfold DeleteNext at h
      split at h
      · exact Except.noConfusion h
      · rename_i st1 hdo
        obtain ⟨rec, ixs', evs, hl, hdf, rfl⟩ := deleteOne_ok hdo
        obtain ⟨hmem, hnd⟩ := deleteNext_ok_facts tab tname rs _ st' h
        have hclean : ∀ x ∈ rs, (lookupA st.heap x).isSome := by
          intro x hx
          obtain ⟨v, hv⟩ := Option.isSome_iff_exists.mp (hmem x hx)
          rw [lookupA_eraseA_some hv]
          rfl
        have hnot : r ∉ rs := by
          intro hr
          have hx := hmem r hr
          rw [lookupA_eraseA_self] at hx
          exact Bool.noConfusion hx
        refine ⟨?_, List.nodup_cons.mpr ⟨hnot, hnd⟩⟩
        intro x hx
        rcases List.mem_cons.mp hx with rfl | hx'
        · rw [hl]
          rfl
        · exact hclean x hx'

/-- The trace of a successful invocation is the concatenation of the per-rid
event blocks, in rid order. -/
theorem deleteNext_trace (tab : TabMeta) (tname : String) :
    ∀ (rids : List Rid) (st st' : ExecState),
      st.indexes.length = tab.cols.length →
      DeleteNext tab tname st rids = Except.ok st' →
      st'.trace = st.trace ++ rids.flatMap (ridTrace tab)
  | [], st, st', hlen, h => by
      unfold DeleteNext at h
      obtain rfl := Except.ok.inj h
      simp
  | r :: rs, st, st', hlen, h => by
      unfold DeleteNext at h
      split at h
      · exact Except.noConfusion h
      · rename_i st1 hdo
        obtain ⟨rec, ixs', evs, hl, hdf, rfl⟩ := deleteOne_ok hdo
        obtain ⟨hlen1, hevs⟩ :=
          deleteFromIndexes_ok_events 0 tab.cols st.indexes ixs' evs
            hlen hdf
        have ih := deleteNext_trace tab tname rs _ st' (by simpa using hlen1) h
        rw [ih, hevs]
        simp [ridTrace, List.flatMap_cons]

theorem mem_ridTrace_rid {tab : TabMeta} {r : Rid} {e : Ev}
    (h : e ∈ ridTrace tab r) : evRid e = r := by
  unfold ridTrace at h
  rcases List.mem_cons.mp h with rfl | h1
  · rfl
  · rcases List.mem_append.mp h1 with h2 | h2
    · obtain ⟨x, -, rfl⟩ := List.mem_map.mp h2
      rfl
    · rcases List.mem_cons.mp h2 with rfl | h3
      · rfl
      · rcases List.mem_cons.mp h3 with rfl | h4
        · rfl
        · simp at h4

theorem ridTrace_get_heapDelete {tab : TabMeta} {r r' : Rid} {n : Nat}
    (h : (ridTrace tab r).get? n = some (Ev.heapDelete r')) :
    r' = r ∧ n = (indexedPos 0 tab.cols).length + 1 := by
  unfold ridTrace at h
  rw [List.cons_append] at h
  cases n with
  | zero => simp at h
  | succ n =>
      rw [List.get?_cons_succ] at h
      by_cases hn : n < ((indexedPos 0 tab.cols).map (Ev.idxDelete r)).length
      · rw [List.get?_append hn, List.get?_map] at h
        obtain ⟨x, -, hx⟩ := Option.map_eq_some'.mp h
        exact Ev.noConfusion hx
      · rw [List.get?_append_right (Nat.le_of_not_lt hn)] at h
        rw [List.length_map] at hn
        cases hm : n - (indexedPos 0 tab.cols).length with
        | zero =>
            rw [List.length_map, hm] at h
            simp only [List.get?_cons_zero, Option.some.injEq] at h
            obtain rfl := (Ev.heapDelete.inj h).symm
            exact ⟨rfl, by omega⟩
        | succ m =>
            rw [List.length_map, hm] at h
            cases m with
            | zero => simp at h
            | succ m => simp at h

theorem ridTrace_get_idxDelete {tab : TabMeta} {r r' : Rid} {c n : Nat}
    (h : (ridTrace tab r).get? n = some (Ev.idxDelete r' c)) :
    r' = r ∧ 1 ≤ n ∧ n ≤ (indexedPos 0 tab.cols).length := by
  unfold ridTrace at h
  rw [List.cons_append] at h
  cases n with
  | zero => simp at h
  | succ n =>
      rw [List.get?_cons_succ] at h
      by_cases hn : n < ((indexedPos 0 tab.cols).map (Ev.idxDelete r)).length
      · rw [List.get?_append hn, List.get?_map] at h
        obtain ⟨x, -, hx⟩ := Option.map_eq_some'.mp h
        obtain ⟨rfl, -⟩ := Ev.idxDelete.inj hx
        rw [List.length_map] at hn
        exact ⟨rfl, by omega, by omega⟩
      · rw [List.get?_append_right (Nat.le_of_not_lt hn)] at h
        cases hm : n - ((indexedPos 0 tab.cols).map (Ev.idxDelete r)).length with
        | zero =>
            rw [hm] at h
            simp at h
        | succ m =>
            rw [hm] at h
            cases m with
            | zero => simp at h
            | succ m => simp at h

theorem ridTrace_get_appendWrite {tab : TabMeta} {r r' : Rid} {n : Nat}
    (h : (ridTrace tab r).get? n = some (Ev.appendWrite r')) :
    r' = r ∧ n = (indexedPos 0 tab.cols).length + 2 := by
  unfold ridTrace at h
  rw [List.cons_append] at h
  cases n with
  | zero => simp at h
  | succ n =>
      rw [List.get?_cons_succ] at h
      by_cases hn : n < ((indexedPos 0 tab.cols).map (Ev.idxDelete r)).length
      · rw [List.get?_append hn, List.get?_map] at h
        obtain ⟨x, -, hx⟩ := Option.map_eq_some'.mp h
        exact Ev.noConfusion hx
      · rw [List.get?_append_right (Nat.le_of_not_lt hn)] at h
        rw [List.length_map] at hn
        cases hm : n - (indexedPos 0 tab.cols).length with
        | zero =>
            rw [List.length_map, hm] at h
            simp at h
        | succ m =>
            rw [List.length_map, hm] at h
            cases m with
            | zero =>
                simp only [List.get?_cons_succ, List.get?_cons_zero,
                  Option.some.injEq] at h
                obtain rfl := (Ev.appendWrite.inj h).symm
                exact ⟨rfl, by omega⟩
            | succ m => simp at h

end RmDb

namespace RmDb

/-- Globally in a successful trace, every index-entry deletion for a rid
precedes that rid's heap deletion. -/
theorem flatMap_heap_after_idx (tab : TabMeta) :
    ∀ (rids : List Rid), rids.Nodup →
      ∀ i j r c,
        (rids.flatMap (ridTrace tab)).get? i = some (Ev.heapDelete r) →
        (rids.flatMap (ridTrace tab)).get? j = some (Ev.idxDelete r c) →
        j < i
  | [], _, i, j, r, c, hi, hj => by simp at hi
  | r0 :: rs, hnd, i, j, r, c, hi, hj => by
      rw [List.flatMap_cons] at hi hj
      obtain ⟨hr0, hndr⟩ := List.nodup_cons.mp hnd
      by_cases h1 : i < (ridTrace tab r0).length
      · rw [List.get?_append h1] at hi
        obtain ⟨hre, hieq⟩ := ridTrace_get_heapDelete hi
        by_cases h2 : j < (ridTrace tab r0).length
        · rw [List.get?_append h2] at hj
          obtain ⟨-, hj1, hj2⟩ := ridTrace_get_idxDelete hj
          omega
        · rw [List.get?_append_right (Nat.le_of_not_lt h2)] at hj
          exfalso
          obtain ⟨r1, hr1, he⟩ := List.mem_flatMap.mp (List.get?_mem hj)
          have hx : r = r1 := mem_ridTrace_rid he
          rw [hre] at hx
          subst hx
          exact hr0 hr1
      · rw [List.get?_append_right (Nat.le_of_not_lt h1)] at hi
        by_cases h2 : j < (ridTrace tab r0).length
        · rw [List.get?_append h2] at hj
          obtain ⟨hre, -, -⟩ := ridTrace_get_idxDelete hj
          exfalso
          obtain ⟨r1, hr1, he⟩ := List.mem_flatMap.mp (List.get?_mem hi)
          have hx : r = r1 := mem_ridTrace_rid he
          rw [hre] at hx
          subst hx
          exact hr0 hr1
        · rw [List.get?_append_right (Nat.le_of_not_lt h2)] at hj
          have hlt := flatMap_heap_after_idx tab rs hndr _ _ r c hi hj
          omega

/-- Globally in a successful trace, a rid's write-record append comes after
all of that rid's index-entry deletions and after its heap deletion. -/
theorem flatMap_append_after (tab : TabMeta) :
    ∀ (rids : List Rid), rids.Nodup →
      ∀ i j r,
        (rids.flatMap (ridTrace tab)).get? i = some (Ev.appendWrite r) →
        ((rids.flatMap (ridTrace tab)).get? j = some (Ev.heapDelete r) ∨
          ∃ c, (rids.flatMap (ridTrace tab)).get? j =
            some (Ev.idxDelete r c)) →
        j < i
  | [], _, i, j, r, hi, hj => by simp at hi
  | r0 :: rs, hnd, i, j, r, hi, hj => by
      rw [List.flatMap_cons] at hi hj
      obtain ⟨hr0, hndr⟩ := List.nodup_cons.mp hnd
      by_cases h1 : i < (ridTrace tab r0).length
      · rw [List.get?_append h1] at hi
        obtain ⟨hre, hieq⟩ := ridTrace_get_appendWrite hi
        by_cases h2 : j < (ridTrace tab r0).length
        · rw [List.get?_append h2] at hj
          rcases hj with hj | ⟨c, hj⟩
          · obtain ⟨-, hjeq⟩ := ridTrace_get_heapDelete hj
            omega
          · obtain ⟨-, hj1, hj2⟩ := ridTrace_get_idxDelete hj
            omega
        · exfalso
          rw [List.get?_append_right (Nat.le_of_not_lt h2)] at hj
          rcases hj with hj | ⟨c, hj⟩ <;>
          · obtain ⟨r1, hr1, he⟩ := List.mem_flatMap.mp (List.get?_mem hj)
            have hx : r = r1 := mem_ridTrace_rid he
            rw [hre] at hx
            subst hx
            exact hr0 hr1
      · rw [List.get?_append_right (Nat.le_of_not_lt h1)] at hi
        by_cases h2 : j < (ridTrace tab r0).length
        · exfalso
          rw [List.get?_append h2] at hj
          have hre : r = r0 := by
            rcases hj with hj | ⟨c, hj⟩
            · exact (ridTrace_get_heapDelete hj).1
            · exact (ridTrace_get_idxDelete hj).1
          obtain ⟨r1, hr1, he⟩ := List.mem_flatMap.mp (List.get?_mem hi)
          have hx : r = r1 := mem_ridTrace_rid he
          rw [hre] at hx
          subst hx
          exact hr0 hr1
        · rw [List.get?_append_right (Nat.le_of_not_lt h2)] at hj
          have hlt := flatMap_append_after tab rs hndr _ _ r hi hj
          omega

theorem filter_isFetch_ridTrace (tab : TabMeta) (r : Rid) :
    (ridTrace tab r).filter isFetch = [Ev.fetch r] := by
  unfold ridTrace
  rw [List.cons_append]
  have hm : ∀ l : List Nat,
      ((l.map (Ev.idxDelete r)).filter isFetch) = [] := by
    intro l
    induction l with
    | nil => rfl
    | cons a l ih => simp [isFetch, ih]
  simp [isFetch, hm]

theorem filter_isFetch_flatMap (tab : TabMeta) :
    ∀ (rids : List Rid),
      ((rids.flatMap (ridTrace tab)).filter isFetch) = rids.map Ev.fetch
  | [] => rfl
  | r :: rs => by
      rw [List.flatMap_cons, List.filter_append, filter_isFetch_ridTrace,
        filter_isFetch_flatMap tab rs, List.map_cons]
      rfl

/-- C5: within one successful Delete Operator invocation started with an
empty trace, the trace is exactly the per-rid blocks in the order of the
input rid list (fetch, then one index deletion per indexed column, then heap
deletion, then write-record append); the fetches occur in input order; no
heap deletion of a rid precedes any of that rid's index-entry deletions; and
the write-record append of a rid comes after that rid's index deletions and
heap deletion. -/
theorem deleteExecutor_ordering (tab : TabMeta) (tname : String)
    (rids : List Rid) (heap0 : List (Rid × List Nat))
    (ixs0 : List IxEntries) (ws0 : List WriteRecord) (st' : ExecState)
    (hlen : ixs0.length = tab.cols.length)
    (h : DeleteNext tab tname ⟨heap0, ixs0, ws0, []⟩ rids =
      Except.ok st') :
    st'.trace = rids.flatMap (ridTrace tab) ∧
    st'.trace.filter isFetch = rids.map Ev.fetch ∧
    (∀ i j r c, st'.trace.get? i = some (Ev.heapDelete r) →
      st'.trace.get? j = some (Ev.idxDelete r c) → j < i) ∧
    (∀ i j r, st'.trace.get? i = some (Ev.appendWrite r) →
      (st'.trace.get? j = some (Ev.heapDelete r) ∨
        ∃ c, st'.trace.get? j = some (Ev.idxDelete r c)) → j < i) := by
  have htr : st'.trace = rids.flatMap (ridTrace tab) := by
    have hx := deleteNext_trace tab tname rids _ st' hlen h
    simpa using hx
  have hnd := (deleteNext_ok_facts tab tname rids _ st' h).2
  rw [htr]
  exact ⟨rfl, filter_isFetch_flatMap tab rids,
    flatMap_heap_after_idx tab rids hnd,
    flatMap_append_after tab rids hnd⟩

/-- Witness for the C5 theorem: the one-row, one-indexed-column scenario. -/
theorem deleteExecutor_ordering_witness :
    (⟨[], [[]],
      [⟨WType.DELETE_TUPLE, "T", ⟨0, 0⟩, [5]⟩],
      [Ev.fetch ⟨0, 0⟩, Ev.idxDelete ⟨0, 0⟩ 0, Ev.heapDelete ⟨0, 0⟩,
       Ev.appendWrite ⟨0, 0⟩]⟩ : ExecState).trace =
      ([(⟨0, 0⟩ : Rid)]).flatMap (ridTrace ⟨[⟨0, 1, true⟩]⟩) := by
  exact (deleteExecutor_ordering ⟨[⟨0, 1, true⟩]⟩ "T" [⟨0, 0⟩]
    [(⟨0, 0⟩, [5])] [[([5], ⟨0, 0⟩)]] []
    ⟨[], [[]],
      [⟨WType.DELETE_TUPLE, "T", ⟨0, 0⟩, [5]⟩],
      [Ev.fetch ⟨0, 0⟩, Ev.idxDelete ⟨0, 0⟩ 0, Ev.heapDelete ⟨0, 0⟩,
       Ev.appendWrite ⟨0, 0⟩]⟩ rfl rfl).1

end RmDb
